import Mathlib

/-!
Verification development for the MCCFR core of the BoerenbridgeAI repository
(src/MCCFR.py).  The class methods of `MCCFR` are embedded as pure Lean
functions over an explicit information-set store; Python floats become ℚ,
the Python dict `self.infoset_dict` becomes a function store, and the
process-wide random source becomes an explicitly threaded generator state.
The game object and the abstraction function are external collaborators of
the core (per the specification) and are represented by a record of the
operations `MCCFR.py` invokes on them.  Recursion over the game tree is
expressed with an explicit fuel parameter bounding the recursion depth;
the specification guarantees the depth is finite, and every statement
quantifies over (or fixes) the fuel.
-/

set_option maxHeartbeats 1000000

namespace MCCFR

/-- State of the pseudo-random source, threaded explicitly.  The Python code
draws from the seedable process-wide `random` module; the model keeps the
generator state as a natural-number seed. -/
abbrev Rng := ℕ

/-- One step of the generator state (a linear-congruential step standing in
for the state transition of the stdlib generator). -/
def rngStep (seed : Rng) : Rng := (seed * 1103515245 + 12345) % 2147483648

/-- The uniform draw in [0, 1) extracted from the current generator state. -/
def rngUnif (seed : Rng) : ℚ := ((seed % 1000 : ℕ) : ℚ) / 1000

/-- Index selection of `random.choices(population, weights)`: walk the
cumulative weights and return the first index whose cumulative weight
exceeds the target `t`. -/
def pickWeighted : List ℚ → ℚ → ℕ
  | [], _ => 0
  | w :: ws, t => if t < w then 0 else pickWeighted ws (t - w) + 1

/-- `random.choices(population, weights)[0]` as an index draw: consume one
uniform variate, scale by the total weight, and pick by cumulative weight. -/
def randChoice (rng : Rng) (weights : List ℚ) : ℕ × Rng :=
  (pickWeighted weights (rngUnif rng * weights.sum), rngStep rng)

/-- Modelled from the spec: the `Infoset` class (file `Infoset.py`) is part of
the repository but not under src/; per §3 of the spec an infoset holds a
`cumulative_regret` and a `strategy_sum` vector, both of the fixed action
count of its key. -/
structure Infoset where
  cumulative_regrets : List ℚ
  strategy_sum : List ℚ
deriving DecidableEq

/-- Modelled from the spec: on first creation both vectors are initialized to
zero with the action-count dimension of the key (spec §3). -/
def Infoset.init (numActions : ℕ) : Infoset :=
  ⟨List.replicate numActions 0, List.replicate numActions 0⟩

/-- Modelled from the spec: the regret-matching / average-strategy
normalization of §4.3 — clip to positive part, divide by the positive sum if
it is positive, otherwise fall back to the uniform distribution.  Shared by
`regret_matching` and `get_average_strategy`, which the spec says normalize
the same way. -/
def normalizeVec (v : List ℚ) : List ℚ :=
  let pos := v.map (fun x => max x 0)
  let s := pos.sum
  if 0 < s then pos.map (fun x => x / s) else List.replicate v.length (1 / (v.length : ℚ))

/-- Modelled from the spec: `Infoset.regret_matching` (§4.3), the current
strategy from the cumulative regrets. -/
def regret_matching (inf : Infoset) : List ℚ :=
  normalizeVec inf.cumulative_regrets

/-- Modelled from the spec: `Infoset.get_average_strategy` (§4.3), the
average strategy from the strategy sums (same normalization, uniform
fallback when all-zero). -/
def get_average_strategy (inf : Infoset) : List ℚ :=
  normalizeVec inf.strategy_sum

/-- Modelled from the spec: `Infoset.update_strategy_sum(reach)` (§4.3):
`strategy_sum[a] += reach * strategy[a]` with the current regret-matching
strategy. -/
def update_strategy_sum (reach : ℚ) (inf : Infoset) : Infoset :=
  { inf with
    strategy_sum :=
      List.zipWith (fun ss p => ss + reach * p) inf.strategy_sum (regret_matching inf) }

/-- The information-set key produced at line 35 of MCCFR.py:
`(game_state[0], frozenset(abs_hand), abs_hist, possible_action_len)`.
The abstraction output `(frozenset(abs_hand), abs_hist)` is collapsed into a
single opaque component of type `κ` (the abstraction function is an external
collaborator). -/
abbrev InfoKey (κ : Type) := ℕ × κ × ℕ

/-- The `self.infoset_dict` mapping, insertion order irrelevant (spec §3). -/
def Store (κ : Type) := InfoKey κ → Option Infoset

/-- The empty information-set dictionary. -/
def Store.empty {κ : Type} : Store κ := fun _ => none

/-- In-place mutation of the infoset object held at a key (a no-op when the
key is absent; all call sites in MCCFR.py mutate a key that is present). -/
def Store.modify {κ : Type} [DecidableEq κ] (st : Store κ) (k : InfoKey κ)
    (f : Infoset → Infoset) : Store κ :=
  fun j => if j = k then (st j).map f else st j

/-- `MCCFR.get_infoset` (lines 21–25): create an infoset if needed and return
it together with the possibly grown dictionary. -/
def get_infoset {κ : Type} [DecidableEq κ] (st : Store κ) (k : InfoKey κ) :
    Infoset × Store κ :=
  match st k with
  | some inf => (inf, st)
  | none => (Infoset.init k.2.2, fun j => if j = k then some (Infoset.init k.2.2) else st j)

/-- The reach-probability vector `np.ones(2)` and its per-player access. -/
abbrev Reach := ℚ × ℚ

/-- `reach_probs[p]`. -/
def Reach.get (r : Reach) (p : ℕ) : ℚ := if p = 0 then r.1 else r.2

/-- `reach_probs.copy()` followed by `new_reach_probs[p] = v`. -/
def Reach.set (r : Reach) (p : ℕ) (v : ℚ) : Reach :=
  if p = 0 then (v, r.2) else (r.1, v)

/-- `np.dot` of two equal-length vectors. -/
def dotProd (a b : List ℚ) : ℚ := (List.zipWith (fun x y => x * y) a b).sum

/-- The interface MCCFR.py consumes from the game object (an external
collaborator per spec §4.1) together with the abstraction function (§4.2):
acting player `game_state[0]`, terminal flag `game_state[3]`, payoff,
ordered legal actions, deterministic transition, the (collapsed) abstraction
output, the deck `game.deck.deck2`, the hand size, the deterministic deal
`sample_new_game(hands=...)` and the random deal `sample_new_game()` (pure
given its random source, per §4.1/§5). -/
structure Game (σ κ : Type) where
  player : σ → ℕ
  isTerminal : σ → Bool
  get_payoff : σ → ℚ
  get_possible_actions : σ → List ℕ
  get_next_game_state : σ → ℕ → σ
  abstractKey : σ → κ
  deck : List ℕ
  handsize : ℕ
  sample_new_game_hands : List ℕ → List ℕ → σ
  sample_new_game : Rng → σ × Rng

variable {σ κ : Type}

/-- `MCCFR.get_info_key` (lines 27–36). -/
def get_info_key (g : Game σ κ) (s : σ) : InfoKey κ :=
  (g.player s, g.abstractKey s, (g.get_possible_actions s).length)

/-- The body of the `for ix, action in enumerate(possible_actions)` loop
shared (up to the reach/store bookkeeping) by `chance_cfr`, `external_cfr`
and `evaluate_helper`: `payoff` is latched to `1` once a transition keeps
the acting player and is otherwise left at its accumulated value, the
child value is computed by the supplied recursive call `rec` on the
supplied reach update, and the signed child value is appended. -/
def nodeStep {τ ρ : Type} (pl : σ → ℕ) (nx : σ → ℕ → σ)
    (rec : σ → ρ → τ → ℚ × τ) (upd : ρ → ℚ → ρ) (s : σ) (strategy : List ℚ)
    (reach : ρ) (acc : ℚ × List ℚ × τ) (ia : ℕ × ℕ) : ℚ × List ℚ × τ :=
  let actionProb := strategy.getD ia.1 0
  let ns := nx s ia.2
  let pay := if pl s = pl ns then 1 else acc.1
  let z := rec ns (upd reach actionProb) acc.2.2
  (pay, acc.2.1 ++ [pay * z.1], z.2)

/-- `MCCFR.chance_cfr` (lines 38–82), with explicit recursion fuel.  Returns
the node value and the mutated dictionary. -/
def chance_cfr (g : Game σ κ) [DecidableEq κ] :
    ℕ → σ → Reach → Store κ → ℚ × Store κ
  | 0, _, _, st => (0, st)
  | fuel + 1, s, reach, st =>
    if g.isTerminal s then (g.get_payoff s, st)
    else
      let acts := g.get_possible_actions s
      if acts.length = 1 then
        let ns := g.get_next_game_state s (acts.getD 0 0)
        let pay : ℚ := if g.player s = g.player ns then 1 else -1
        let z := chance_cfr g fuel ns reach st
        (pay * z.1, z.2)
      else
        let p := g.player s
        let opp := (p + 1) % 2
        let key := get_info_key g s
        let fetched := get_infoset st key
        let strategy := regret_matching fetched.1
        let st2 := Store.modify fetched.2 key (update_strategy_sum (reach.get p))
        let loop := acts.enum.foldl
          (nodeStep g.player g.get_next_game_state
            (fun ns r stc => chance_cfr g fuel ns r stc)
            (fun r prob => r.set p (r.get p * prob)) s strategy reach)
          (-1, [], st2)
        let node_value := dotProd loop.2.1 strategy
        (node_value,
          Store.modify loop.2.2 key (fun inf =>
            { inf with
              cumulative_regrets :=
                List.zipWith (fun cr cf => cr + reach.get opp * (cf - node_value))
                  inf.cumulative_regrets loop.2.1 }))

/-- `MCCFR.external_cfr` (lines 84–146), with explicit recursion fuel and the
threaded random source.  Returns the node value, the mutated dictionary and
the advanced generator state. -/
def external_cfr (g : Game σ κ) [DecidableEq κ] :
    ℕ → σ → Reach → ℕ → Store κ → Rng → ℚ × Store κ × Rng
  | 0, _, _, _, st, rng => (0, st, rng)
  | fuel + 1, s, reach, update_player, st, rng =>
    if g.isTerminal s then (g.get_payoff s, st, rng)
    else
      let acts := g.get_possible_actions s
      if acts.length = 1 then
        let ns := g.get_next_game_state s (acts.getD 0 0)
        let pay : ℚ := if g.player s = g.player ns then 1 else -1
        let z := external_cfr g fuel ns reach update_player st rng
        (pay * z.1, z.2)
      else
        let p := g.player s
        let opp := (p + 1) % 2
        let key := get_info_key g s
        let fetched := get_infoset st key
        if p ≠ update_player then
          let strategy := regret_matching fetched.1
          let drawn := randChoice rng strategy
          let action := acts.getD drawn.1 0
          let action_index := acts.indexOf action
          let actionProb := strategy.getD action_index 0
          let nreach := reach.set p (reach.get p * actionProb)
          let ns := g.get_next_game_state s action
          let pay : ℚ := if g.player s = g.player ns then 1 else -1
          let z := external_cfr g fuel ns nreach update_player fetched.2 drawn.2
          (pay * z.1, z.2)
        else
          let strategy := regret_matching fetched.1
          let st2 := Store.modify fetched.2 key (update_strategy_sum (reach.get p))
          let loop := acts.enum.foldl
            (nodeStep g.player g.get_next_game_state
              (fun ns r (t : Store κ × Rng) =>
                let z := external_cfr g fuel ns r update_player t.1 t.2
                (z.1, z.2))
              (fun r prob => r.set p (r.get p * prob)) s strategy reach)
            (-1, [], st2, rng)
          let node_value := dotProd loop.2.1 strategy
          (node_value,
            Store.modify loop.2.2.1 key (fun inf =>
              { inf with
                cumulative_regrets :=
                  List.zipWith (fun cr cf => cr + reach.get opp * (cf - node_value))
                    inf.cumulative_regrets loop.2.1 }),
            loop.2.2.2)

/-- `MCCFR.evaluate_helper` (lines 173–211), with explicit recursion fuel.
Returns the expected value under the average strategy and the dictionary
(grown by `get_infoset` at visited decision nodes). -/
def evaluate_helper (g : Game σ κ) [DecidableEq κ] :
    ℕ → σ → ℚ → Store κ → ℚ × Store κ
  | 0, _, _, st => (0, st)
  | fuel + 1, s, reach_prob, st =>
    if g.isTerminal s then (g.get_payoff s, st)
    else
      let acts := g.get_possible_actions s
      if acts.length = 1 then
        let ns := g.get_next_game_state s (acts.getD 0 0)
        let pay : ℚ := if g.player s = g.player ns then 1 else -1
        let z := evaluate_helper g fuel ns reach_prob st
        (pay * z.1, z.2)
      else
        let key := get_info_key g s
        let fetched := get_infoset st key
        let strategy := get_average_strategy fetched.1
        let loop := acts.enum.foldl
          (nodeStep g.player g.get_next_game_state
            (fun ns r stc => evaluate_helper g fuel ns r stc)
            (fun r prob => r * prob) s strategy reach_prob)
          (-1, [], fetched.2)
        (dotProd loop.2.1 strategy, loop.2.2)

/-- `sorted(...)` on a hand. -/
def sortNat (l : List ℕ) : List ℕ := l.insertionSort (fun a b => a ≤ b)

/-- `MCCFR.evaluate` (lines 213–227), with explicit recursion fuel for the
helper: enumerate `itertools.combinations(deck, handsize*2)`, within each
the combinations for the first hand, build the complementary second hand,
evaluate the deterministic deal, and divide the accumulated utility by
`comb(|deck|, handsize) * comb(|deck| - handsize, handsize)`. -/
def evaluate (g : Game σ κ) [DecidableEq κ] (fuel : ℕ) (st : Store κ) :
    ℚ × Store κ :=
  let hand_prob : ℚ :=
    ((Nat.choose g.deck.length g.handsize *
      Nat.choose (g.deck.length - g.handsize) g.handsize : ℕ) : ℚ)
  let loop := (List.sublistsLen (g.handsize * 2) g.deck).foldl
    (fun (acc : ℚ × Store κ) dealt_cards =>
      (List.sublistsLen g.handsize dealt_cards).foldl
        (fun (acc2 : ℚ × Store κ) hand1 =>
          let hand2 := dealt_cards.filter (fun c => decide (c ∉ hand1))
          let gs := g.sample_new_game_hands (sortNat hand1) (sortNat hand2)
          let z := evaluate_helper g fuel gs 1 acc2.2
          (acc2.1 + z.1, z.2)) acc)
    (0, st)
  (loop.1 / hand_prob, loop.2)

/-- `MCCFR.train_chance` (lines 148–155). -/
def train_chance (g : Game σ κ) [DecidableEq κ] (fuel num_iterations : ℕ)
    (st : Store κ) (rng : Rng) : ℚ × Store κ × Rng :=
  let loop := (List.range num_iterations).foldl
    (fun (acc : ℚ × Store κ × Rng) _ =>
      let gs := g.sample_new_game acc.2.2
      let z := chance_cfr g fuel gs.1 (1, 1) acc.2.1
      (acc.1 + z.1, z.2, gs.2))
    (0, st, rng)
  (loop.1 / (num_iterations : ℚ), loop.2)

/-- `MCCFR.train_external` (lines 157–165). -/
def train_external (g : Game σ κ) [DecidableEq κ] (fuel num_iterations : ℕ)
    (st : Store κ) (rng : Rng) : ℚ × Store κ × Rng :=
  let loop := (List.range num_iterations).foldl
    (fun (acc : ℚ × Store κ × Rng) _ =>
      (List.range 2).foldl
        (fun (acc2 : ℚ × Store κ × Rng) i =>
          let gs := g.sample_new_game acc2.2.2
          let z := external_cfr g fuel gs.1 (1, 1) i acc2.2.1 gs.2
          (acc2.1 + z.1, z.2)) acc)
    (0, st, rng)
  (loop.1 / ((num_iterations : ℚ) * 2), loop.2)

/-- `MCCFR.get_exploitability` (lines 229–245): snapshot, run
`num_iterations` update-player-0 traversals, evaluate, restore, run
`num_iterations` update-player-1 traversals, evaluate, restore, return the
difference. -/
def get_exploitability (g : Game σ κ) [DecidableEq κ] (fuel num_iterations : ℕ)
    (st : Store κ) (rng : Rng) : ℚ × Store κ × Rng :=
  let info_dict_copy := st
  let loop1 := (List.range num_iterations).foldl
    (fun (acc : Store κ × Rng) _ =>
      let gs := g.sample_new_game acc.2
      let z := external_cfr g fuel gs.1 (1, 1) 0 acc.1 gs.2
      (z.2.1, z.2.2))
    (st, rng)
  let b1 := (evaluate g fuel loop1.1).1
  let loop2 := (List.range num_iterations).foldl
    (fun (acc : Store κ × Rng) _ =>
      let gs := g.sample_new_game acc.2
      let z := external_cfr g fuel gs.1 (1, 1) 1 acc.1 gs.2
      (z.2.1, z.2.2))
    (info_dict_copy, loop1.2)
  let b2 := (evaluate g fuel loop2.1).1
  (b1 - b2, info_dict_copy, loop2.2)

/-! ### The enumeration loop as an explicit recursion

`nodeScan` is the explicit-recursion rendering of the
`foldl (nodeStep ...)` enumeration loop; `foldl_nodeStep_eq_nodeScan`
relates the two.  All structural reasoning about the loops goes through
this form. -/

/-- Explicit recursion equivalent of the `nodeStep` fold: returns the final
latched sign, the list of signed child values, and the threaded state. -/
def nodeScan {τ ρ : Type} (pl : σ → ℕ) (nx : σ → ℕ → σ)
    (rec : σ → ρ → τ → ℚ × τ) (upd : ρ → ℚ → ρ) (s : σ) (strategy : List ℚ)
    (reach : ρ) : List (ℕ × ℕ) → ℚ → τ → ℚ × List ℚ × τ
  | [], pay, t => (pay, [], t)
  | ia :: rest, pay, t =>
    let actionProb := strategy.getD ia.1 0
    let ns := nx s ia.2
    let pay2 := if pl s = pl ns then 1 else pay
    let z := rec ns (upd reach actionProb) t
    let w := nodeScan pl nx rec upd s strategy reach rest pay2 z.2
    (w.1, (pay2 * z.1) :: w.2.1, w.2.2)

theorem foldl_nodeStep_eq_nodeScan {τ ρ : Type} (pl : σ → ℕ) (nx : σ → ℕ → σ)
    (rec : σ → ρ → τ → ℚ × τ) (upd : ρ → ℚ → ρ) (s : σ) (strategy : List ℚ)
    (reach : ρ) :
    ∀ (l : List (ℕ × ℕ)) (pay : ℚ) (cfs : List ℚ) (t : τ),
      l.foldl (nodeStep pl nx rec upd s strategy reach) (pay, cfs, t) =
        ((nodeScan pl nx rec upd s strategy reach l pay t).1,
         cfs ++ (nodeScan pl nx rec upd s strategy reach l pay t).2.1,
         (nodeScan pl nx rec upd s strategy reach l pay t).2.2) := by
  intro l
  induction l with
  | nil => intro pay cfs t; simp [nodeScan]
  | cons ia rest ih =>
    intro pay cfs t
    simp only [List.foldl_cons, nodeStep, nodeScan, ih, List.append_assoc,
      List.singleton_append]

/-! ### Zero-extension of stores -/

/-- Store `st2` agrees with `st1` except that it may hold freshly
zero-initialized infosets at keys absent from `st1`.  This is exactly the
kind of growth `get_infoset` causes when called by a read-only traversal. -/
def ZExt {κ : Type} (st1 st2 : Store κ) : Prop :=
  ∀ k, st2 k = st1 k ∨ (st1 k = none ∧ st2 k = some (Infoset.init k.2.2))

theorem ZExt.refl (st : Store κ) : ZExt st st := fun _ => Or.inl rfl

theorem ZExt.lookup_some {st1 st2 : Store κ} (h : ZExt st1 st2) {k : InfoKey κ}
    {i : Infoset} (hk : st1 k = some i) : st2 k = some i := by
  rcases h k with h1 | ⟨h1, _⟩
  · rw [h1, hk]
  · rw [h1] at hk; exact absurd hk (by simp)

theorem ZExt.dom_mono {st1 st2 : Store κ} (h : ZExt st1 st2) {k : InfoKey κ}
    (hk : st1 k ≠ none) : st2 k ≠ none := by
  rcases Option.ne_none_iff_exists'.1 hk with ⟨i, hi⟩
  rw [h.lookup_some hi]
  simp

theorem ZExt.trans {st1 st2 st3 : Store κ} (h12 : ZExt st1 st2) (h23 : ZExt st2 st3) :
    ZExt st1 st3 := by
  intro k
  rcases h23 k with h3 | ⟨h3, h3'⟩
  · rw [h3]; exact h12 k
  · rcases h12 k with h2 | ⟨h2, h2'⟩
    · rw [← h2, h3]; exact Or.inr ⟨rfl, h3'⟩
    · exact Or.inr ⟨h2, h3'⟩

theorem ZExt.merge {sta stb stc : Store κ} (hab : ZExt sta stb) (hac : ZExt sta stc)
    (hdom : ∀ k, stb k ≠ none → stc k ≠ none) : ZExt stb stc := by
  intro k
  rcases hab k with hb | ⟨hb1, hb2⟩
  · rcases hac k with hc | ⟨hc1, hc2⟩
    · exact Or.inl (by rw [hc, hb])
    · exact Or.inr ⟨hb.trans hc1, hc2⟩
  · rcases hac k with hc | ⟨hc1, hc2⟩
    · exact absurd (hc.trans hb1) (hdom k (by simp [hb2]))
    · exact Or.inl (hc2.trans hb2.symm)

theorem ZExt.get_infoset_snd [DecidableEq κ] (st : Store κ) (k : InfoKey κ) :
    ZExt st (get_infoset st k).2 := by
  unfold get_infoset
  cases h : st k with
  | some inf => exact ZExt.refl st
  | none =>
    intro j
    by_cases hj : j = k
    · subst hj; exact Or.inr ⟨h, by simp⟩
    · exact Or.inl (by simp [hj])

theorem ZExt.get_infoset_congr [DecidableEq κ] {st1 st2 : Store κ} (h : ZExt st1 st2)
    (k : InfoKey κ) :
    (get_infoset st1 k).1 = (get_infoset st2 k).1 ∧
      ZExt (get_infoset st1 k).2 (get_infoset st2 k).2 := by
  unfold get_infoset
  rcases h k with hk | ⟨hk1, hk2⟩
  · cases h1 : st1 k with
    | some inf =>
      rw [hk, h1]
      exact ⟨rfl, h⟩
    | none =>
      rw [hk, h1]
      constructor
      · rfl
      · intro j
        by_cases hj : j = k
        · subst hj; simp
        · simp only [if_neg hj]; exact h j
  · rw [hk1, hk2]
    constructor
    · rfl
    · intro j
      by_cases hj : j = k
      · subst hj; simp [hk2]
      · simp only [if_neg hj]; exact h j


theorem evaluate_helper_ZExt (g : Game σ κ) [DecidableEq κ] :
    ∀ (fuel : ℕ) (s : σ) (r : ℚ) (st1 st2 : Store κ), ZExt st1 st2 →
      (evaluate_helper g fuel s r st1).1 = (evaluate_helper g fuel s r st2).1 ∧
      ZExt (evaluate_helper g fuel s r st1).2 (evaluate_helper g fuel s r st2).2 := by
  intro fuel
  induction fuel with
  | zero => intro s r st1 st2 h; exact ⟨rfl, h⟩
  | succ fuel ih =>
    intro s r st1 st2 h
    by_cases ht : g.isTerminal s = true
    · simp only [evaluate_helper, if_pos ht, true_and]
      exact h
    · by_cases hl : (g.get_possible_actions s).length = 1
      · simp only [evaluate_helper, if_neg ht, if_pos hl]
        obtain ⟨hv, hs⟩ := ih (g.get_next_game_state s ((g.get_possible_actions s).getD 0 0)) r st1 st2 h
        exact ⟨by rw [hv], hs⟩
      · have hkey := ZExt.get_infoset_congr h (get_info_key g s)
        simp only [evaluate_helper, if_neg ht, if_neg hl]
        rw [← hkey.1]
        set strategy := get_average_strategy (get_infoset st1 (get_info_key g s)).1 with hstrat
        have scanZ : ∀ (l : List (ℕ × ℕ)) (pay : ℚ) (t1 t2 : Store κ), ZExt t1 t2 →
            (nodeScan g.player g.get_next_game_state
              (fun ns rr stc => evaluate_helper g fuel ns rr stc) (fun rr prob => rr * prob)
              s strategy r l pay t1).2.1 =
            (nodeScan g.player g.get_next_game_state
              (fun ns rr stc => evaluate_helper g fuel ns rr stc) (fun rr prob => rr * prob)
              s strategy r l pay t2).2.1 ∧
            ZExt (nodeScan g.player g.get_next_game_state
              (fun ns rr stc => evaluate_helper g fuel ns rr stc) (fun rr prob => rr * prob)
              s strategy r l pay t1).2.2
              (nodeScan g.player g.get_next_game_state
              (fun ns rr stc => evaluate_helper g fuel ns rr stc) (fun rr prob => rr * prob)
              s strategy r l pay t2).2.2 := by
          intro l
          induction l with
          | nil => intro pay t1 t2 hz; exact ⟨rfl, hz⟩
          | cons ia rest ihl =>
            intro pay t1 t2 hz
            simp only [nodeScan]
            obtain ⟨hv, hs⟩ := ih (g.get_next_game_state s ia.2) (r * strategy.getD ia.1 0) t1 t2 hz
            obtain ⟨hrv, hrs⟩ := ihl (if g.player s = g.player (g.get_next_game_state s ia.2) then 1 else pay)
              (evaluate_helper g fuel (g.get_next_game_state s ia.2) (r * strategy.getD ia.1 0) t1).2
              (evaluate_helper g fuel (g.get_next_game_state s ia.2) (r * strategy.getD ia.1 0) t2).2 hs
            rw [hv, hrv]
            exact ⟨rfl, hrs⟩
        rw [foldl_nodeStep_eq_nodeScan, foldl_nodeStep_eq_nodeScan]
        obtain ⟨hvals, hst⟩ := scanZ (g.get_possible_actions s).enum (-1)
          (get_infoset st1 (get_info_key g s)).2 (get_infoset st2 (get_info_key g s)).2 hkey.2
        rw [List.nil_append, List.nil_append, hvals]
        exact ⟨rfl, hst⟩

theorem get_infoset_snd_self_ne_none [DecidableEq κ] (st : Store κ) (k : InfoKey κ) :
    (get_infoset st k).2 k ≠ none := by
  unfold get_infoset
  cases h : st k <;> simp [h]

theorem get_infoset_snd_of_ne_none [DecidableEq κ] {st : Store κ} {k : InfoKey κ}
    (h : st k ≠ none) : (get_infoset st k).2 = st := by
  unfold get_infoset
  cases h2 : st k with
  | none => exact absurd h2 h
  | some i => rfl

theorem evaluate_helper_ZExt_out (g : Game σ κ) [DecidableEq κ] :
    ∀ (fuel : ℕ) (s : σ) (r : ℚ) (st : Store κ),
      ZExt st (evaluate_helper g fuel s r st).2 := by
  intro fuel
  induction fuel with
  | zero => intro s r st; exact ZExt.refl st
  | succ fuel ih =>
    intro s r st
    by_cases ht : g.isTerminal s = true
    · simp only [evaluate_helper, if_pos ht]; exact ZExt.refl st
    · by_cases hl : (g.get_possible_actions s).length = 1
      · simp only [evaluate_helper, if_neg ht, if_pos hl]
        exact ih (g.get_next_game_state s ((g.get_possible_actions s).getD 0 0)) r st
      · simp only [evaluate_helper, if_neg ht, if_neg hl]
        rw [foldl_nodeStep_eq_nodeScan]
        have scanOut : ∀ (strategy : List ℚ) (l : List (ℕ × ℕ)) (pay : ℚ) (t : Store κ),
            ZExt t (nodeScan g.player g.get_next_game_state
              (fun ns rr stc => evaluate_helper g fuel ns rr stc) (fun rr prob => rr * prob)
              s strategy r l pay t).2.2 := by
          intro strategy l
          induction l with
          | nil => intro pay t; exact ZExt.refl t
          | cons ia rest ihl =>
            intro pay t
            simp only [nodeScan]
            exact (ih (g.get_next_game_state s ia.2) (r * strategy.getD ia.1 0) t).trans
              (ihl _ _)
        exact (ZExt.get_infoset_snd st (get_info_key g s)).trans (scanOut _ _ _ _)

theorem evaluate_helper_idem (g : Game σ κ) [DecidableEq κ] :
    ∀ (fuel : ℕ) (s : σ) (r1 r2 : ℚ) (st1 st2 : Store κ), ZExt st1 st2 →
      (∀ k, (evaluate_helper g fuel s r1 st1).2 k ≠ none → st2 k ≠ none) →
      (evaluate_helper g fuel s r2 st2).2 = st2 := by
  intro fuel
  induction fuel with
  | zero => intro s r1 r2 st1 st2 _ _; rfl
  | succ fuel ih =>
    intro s r1 r2 st1 st2 hz hdom
    by_cases ht : g.isTerminal s = true
    · simp only [evaluate_helper, if_pos ht]
    · by_cases hl : (g.get_possible_actions s).length = 1
      · simp only [evaluate_helper, if_neg ht, if_pos hl] at hdom ⊢
        exact ih _ r1 r2 st1 st2 hz hdom
      · simp only [evaluate_helper, if_neg ht, if_neg hl] at hdom ⊢
        rw [foldl_nodeStep_eq_nodeScan] at hdom ⊢
        have scanOut : ∀ (strategy : List ℚ) (rr : ℚ) (l : List (ℕ × ℕ)) (pay : ℚ) (t : Store κ),
            ZExt t (nodeScan g.player g.get_next_game_state
              (fun ns r stc => evaluate_helper g fuel ns r stc) (fun r prob => r * prob)
              s strategy rr l pay t).2.2 := by
          intro strategy rr l
          induction l with
          | nil => intro pay t; exact ZExt.refl t
          | cons ia rest ihl =>
            intro pay t
            simp only [nodeScan]
            exact ((evaluate_helper_ZExt_out g fuel _ _ t).trans (ihl _ _))
        have hkey2 : st2 (get_info_key g s) ≠ none := by
          apply hdom
          apply ZExt.dom_mono (scanOut _ _ _ _ _)
          exact get_infoset_snd_self_ne_none st1 (get_info_key g s)
        rw [get_infoset_snd_of_ne_none hkey2]
        have scanIdem : ∀ (strat1 strat2 : List ℚ) (l : List (ℕ × ℕ)) (pay1 pay2 : ℚ)
            (t1 : Store κ), ZExt t1 st2 →
            (∀ k, (nodeScan g.player g.get_next_game_state
              (fun ns r stc => evaluate_helper g fuel ns r stc) (fun r prob => r * prob)
              s strat1 r1 l pay1 t1).2.2 k ≠ none → st2 k ≠ none) →
            (nodeScan g.player g.get_next_game_state
              (fun ns r stc => evaluate_helper g fuel ns r stc) (fun r prob => r * prob)
              s strat2 r2 l pay2 st2).2.2 = st2 := by
          intro strat1 strat2 l
          induction l with
          | nil => intro pay1 pay2 t1 _ _; rfl
          | cons ia rest ihl =>
            intro pay1 pay2 t1 hzt hdomt
            simp only [nodeScan] at hdomt ⊢
            have hchild : (evaluate_helper g fuel (g.get_next_game_state s ia.2)
                (r2 * strat2.getD ia.1 0) st2).2 = st2 := by
              apply ih _ (r1 * strat1.getD ia.1 0) _ t1 st2 hzt
              intro k hk
              apply hdomt
              exact ZExt.dom_mono (scanOut _ _ _ _ _) hk
            rw [hchild]
            apply ihl _ _ (evaluate_helper g fuel (g.get_next_game_state s ia.2)
              (r1 * strat1.getD ia.1 0) t1).2
            · refine ZExt.merge (evaluate_helper_ZExt_out g fuel _ _ t1) hzt ?_
              intro k hk
              apply hdomt
              exact ZExt.dom_mono (scanOut _ _ _ _ _) hk
            · exact hdomt
        have hz2 : ZExt (get_infoset st1 (get_info_key g s)).2 st2 := by
          have h3 := (ZExt.get_infoset_congr hz (get_info_key g s)).2
          rwa [get_infoset_snd_of_ne_none hkey2] at h3
        exact scanIdem _ _ _ (-1) (-1) _ hz2 hdom

/-! ### Flattened form of `evaluate` -/

/-- The sequence of evaluated dealt states, one `evaluate_helper` call per
iteration, threading the accumulated utility and the dictionary. -/
def evalFold (g : Game σ κ) [DecidableEq κ] (fuel : ℕ) :
    List σ → ℚ × Store κ → ℚ × Store κ
  | [], acc => acc
  | s :: rest, acc =>
    let z := evaluate_helper g fuel s 1 acc.2
    evalFold g fuel rest (acc.1 + z.1, z.2)

/-- The ordered (hand1, hand2) pairs enumerated by `evaluate`, flattened:
for every `handsize*2`-card draw from the deck, every `handsize`-card first
hand, paired with the complementary second hand. -/
def dealPairs (g : Game σ κ) : List (List ℕ × List ℕ) :=
  (List.sublistsLen (g.handsize * 2) g.deck).flatMap
    (fun dealt => (List.sublistsLen g.handsize dealt).map
      (fun hand1 => (hand1, dealt.filter (fun c => decide (c ∉ hand1)))))

/-- The initial game states `evaluate` builds for the enumerated deals. -/
def dealStates (g : Game σ κ) : List σ :=
  (dealPairs g).map (fun q => g.sample_new_game_hands (sortNat q.1) (sortNat q.2))

theorem evalFold_append (g : Game σ κ) [DecidableEq κ] (fuel : ℕ) :
    ∀ (l1 l2 : List σ) (acc : ℚ × Store κ),
      evalFold g fuel (l1 ++ l2) acc = evalFold g fuel l2 (evalFold g fuel l1 acc) := by
  intro l1
  induction l1 with
  | nil => intro l2 acc; rfl
  | cons s rest ih =>
    intro l2 acc
    simp only [List.cons_append, evalFold]
    exact ih l2 _

theorem foldl_map_evalFold (g : Game σ κ) [DecidableEq κ] (fuel : ℕ) {α : Type}
    (f : α → σ) :
    ∀ (l : List α) (acc : ℚ × Store κ),
      l.foldl (fun a x =>
        let z := evaluate_helper g fuel (f x) 1 a.2
        (a.1 + z.1, z.2)) acc = evalFold g fuel (l.map f) acc := by
  intro l
  induction l with
  | nil => intro acc; rfl
  | cons x rest ih => intro acc; simp only [List.foldl_cons, List.map_cons, evalFold, ih]

theorem evaluate_eq_evalFold (g : Game σ κ) [DecidableEq κ] (fuel : ℕ) (st : Store κ) :
    evaluate g fuel st =
      ((evalFold g fuel (dealStates g) (0, st)).1 /
        ((Nat.choose g.deck.length g.handsize *
          Nat.choose (g.deck.length - g.handsize) g.handsize : ℕ) : ℚ),
       (evalFold g fuel (dealStates g) (0, st)).2) := by
  have main : ∀ (deals : List (List ℕ)) (acc : ℚ × Store κ),
      deals.foldl
        (fun (acc2 : ℚ × Store κ) dealt_cards =>
          (List.sublistsLen g.handsize dealt_cards).foldl
            (fun (acc3 : ℚ × Store κ) hand1 =>
              let hand2 := dealt_cards.filter (fun c => decide (c ∉ hand1))
              let gs := g.sample_new_game_hands (sortNat hand1) (sortNat hand2)
              let z := evaluate_helper g fuel gs 1 acc3.2
              (acc3.1 + z.1, z.2)) acc2) acc =
      evalFold g fuel
        (deals.flatMap (fun dealt =>
          (List.sublistsLen g.handsize dealt).map (fun hand1 =>
            g.sample_new_game_hands (sortNat hand1)
              (sortNat (dealt.filter (fun c => decide (c ∉ hand1))))))) acc := by
    intro deals
    induction deals with
    | nil => intro acc; rfl
    | cons dealt rest ih =>
      intro acc
      simp only [List.foldl_cons, List.flatMap_cons, evalFold_append, ih]
      rw [foldl_map_evalFold]
  have states_eq : dealStates g =
      (List.sublistsLen (g.handsize * 2) g.deck).flatMap (fun dealt =>
        (List.sublistsLen g.handsize dealt).map (fun hand1 =>
          g.sample_new_game_hands (sortNat hand1)
            (sortNat (dealt.filter (fun c => decide (c ∉ hand1)))))) := by
    simp only [dealStates, dealPairs, List.map_flatMap, List.map_map]
    rfl
  simp only [evaluate, main, states_eq]

theorem evalFold_ZExt_out (g : Game σ κ) [DecidableEq κ] (fuel : ℕ) :
    ∀ (l : List σ) (acc : ℚ × Store κ), ZExt acc.2 (evalFold g fuel l acc).2 := by
  intro l
  induction l with
  | nil => intro acc; exact ZExt.refl acc.2
  | cons s rest ih =>
    intro acc
    simp only [evalFold]
    exact (evaluate_helper_ZExt_out g fuel s 1 acc.2).trans (ih _)

theorem evalFold_ZExt (g : Game σ κ) [DecidableEq κ] (fuel : ℕ) :
    ∀ (l : List σ) (u : ℚ) (st1 st2 : Store κ), ZExt st1 st2 →
      (evalFold g fuel l (u, st1)).1 = (evalFold g fuel l (u, st2)).1 ∧
      ZExt (evalFold g fuel l (u, st1)).2 (evalFold g fuel l (u, st2)).2 := by
  intro l
  induction l with
  | nil => intro u st1 st2 h; exact ⟨rfl, h⟩
  | cons s rest ih =>
    intro u st1 st2 h
    obtain ⟨hv, hs⟩ := evaluate_helper_ZExt g fuel s 1 st1 st2 h
    simp only [evalFold, hv]
    exact ih _ _ _ hs

theorem evalFold_sum (g : Game σ κ) [DecidableEq κ] (fuel : ℕ) (st : Store κ) :
    ∀ (l : List σ) (u : ℚ) (stc : Store κ), ZExt st stc →
      (evalFold g fuel l (u, stc)).1 =
        u + (l.map (fun s => (evaluate_helper g fuel s 1 st).1)).sum := by
  intro l
  induction l with
  | nil => intro u stc _; simp [evalFold]
  | cons s rest ih =>
    intro u stc hz
    simp only [evalFold, List.map_cons, List.sum_cons]
    rw [ih _ _ (hz.trans (evaluate_helper_ZExt_out g fuel s 1 stc))]
    rw [(evaluate_helper_ZExt g fuel s 1 st stc hz).1]
    ring

theorem evalFold_idem (g : Game σ κ) [DecidableEq κ] (fuel : ℕ) :
    ∀ (l : List σ) (u1 u2 : ℚ) (st1 st2 : Store κ), ZExt st1 st2 →
      (∀ k, (evalFold g fuel l (u1, st1)).2 k ≠ none → st2 k ≠ none) →
      (evalFold g fuel l (u2, st2)).2 = st2 := by
  intro l
  induction l with
  | nil => intro u1 u2 st1 st2 _ _; rfl
  | cons s rest ih =>
    intro u1 u2 st1 st2 hz hdom
    simp only [evalFold] at hdom ⊢
    have hchild : (evaluate_helper g fuel s 1 st2).2 = st2 := by
      apply evaluate_helper_idem g fuel s 1 1 st1 st2 hz
      intro k hk
      apply hdom
      exact ZExt.dom_mono (evalFold_ZExt_out g fuel rest _) hk
    rw [hchild]
    apply ih _ _ (evaluate_helper g fuel s 1 st1).2 st2
    · refine ZExt.merge (evaluate_helper_ZExt_out g fuel s 1 st1) hz ?_
      intro k hk
      apply hdom
      exact ZExt.dom_mono (evalFold_ZExt_out g fuel rest _) hk
    · exact hdom

theorem evaluate_helper_reach_irrel (g : Game σ κ) [DecidableEq κ] :
    ∀ (fuel : ℕ) (s : σ) (r1 r2 : ℚ) (st : Store κ),
      evaluate_helper g fuel s r1 st = evaluate_helper g fuel s r2 st := by
  intro fuel
  induction fuel with
  | zero => intro s r1 r2 st; rfl
  | succ fuel ih =>
    intro s r1 r2 st
    by_cases ht : g.isTerminal s = true
    · simp only [evaluate_helper, if_pos ht]
    · by_cases hl : (g.get_possible_actions s).length = 1
      · simp only [evaluate_helper, if_neg ht, if_pos hl]
        rw [ih _ r1 r2]
      · simp only [evaluate_helper, if_neg ht, if_neg hl]
        rw [foldl_nodeStep_eq_nodeScan, foldl_nodeStep_eq_nodeScan]
        have scanR : ∀ (strategy : List ℚ) (l : List (ℕ × ℕ)) (pay : ℚ) (t : Store κ),
            nodeScan g.player g.get_next_game_state
              (fun ns rr stc => evaluate_helper g fuel ns rr stc) (fun rr prob => rr * prob)
              s strategy r1 l pay t =
            nodeScan g.player g.get_next_game_state
              (fun ns rr stc => evaluate_helper g fuel ns rr stc) (fun rr prob => rr * prob)
              s strategy r2 l pay t := by
          intro strategy l
          induction l with
          | nil => intro pay t; rfl
          | cons ia rest ihl =>
            intro pay t
            simp only [nodeScan]
            rw [ih _ (r1 * strategy.getD ia.1 0) (r2 * strategy.getD ia.1 0), ihl]
        rw [scanR]

/-! ### Combinatorics of the deal enumeration -/

theorem filter_mem_of_sublist {l s : List ℕ} (hs : List.Sublist s l) :
    l.Nodup → l.filter (fun x => decide (x ∈ s)) = s := by
  induction hs with
  | slnil => intro _; rfl
  | @cons l₁ l₂ a hs ih =>
    intro hn
    have ha : a ∉ l₁ := fun hmem => (List.nodup_cons.1 hn).1 (hs.subset hmem)
    have h1 : List.filter (fun x => decide (x ∈ l₁)) (a :: l₂) =
        List.filter (fun x => decide (x ∈ l₁)) l₂ := by
      simp [List.filter_cons, ha]
    rw [h1]
    exact ih (List.nodup_cons.1 hn).2
  | @cons₂ l₁ l₂ a hs ih =>
    intro hn
    have h1 : List.filter (fun x => decide (x ∈ a :: l₁)) (a :: l₂) =
        a :: List.filter (fun x => decide (x ∈ a :: l₁)) l₂ := by
      simp [List.filter_cons]
    rw [h1]
    have hcongr : List.filter (fun x => decide (x ∈ a :: l₁)) l₂ =
        List.filter (fun x => decide (x ∈ l₁)) l₂ := by
      apply List.filter_congr
      intro x hx
      have hxa : x ≠ a := fun he => (List.nodup_cons.1 hn).1 (he ▸ hx)
      simp [List.mem_cons, hxa]
    rw [hcongr, ih (List.nodup_cons.1 hn).2]

theorem countP_or_disjoint (p q : ℕ → Bool) :
    ∀ (l : List ℕ), (∀ x, ¬(p x = true ∧ q x = true)) →
      l.countP (fun x => p x || q x) = l.countP p + l.countP q := by
  intro l
  induction l with
  | nil => intro _; rfl
  | cons a rest ih =>
    intro h
    simp only [List.countP_cons, ih h]
    rcases hp : p a with _ | _ <;> rcases hq : q a with _ | _ <;> simp_all <;> omega

theorem length_filter_mem {l s : List ℕ} (hs : List.Sublist s l) (hn : l.Nodup) :
    l.countP (fun x => decide (x ∈ s)) = s.length := by
  rw [List.countP_eq_length_filter, filter_mem_of_sublist hs hn]

theorem mem_dealPairs (g : Game σ κ) (hdeck : g.deck.Nodup) (q : List ℕ × List ℕ) :
    q ∈ dealPairs g ↔
      List.Sublist q.1 g.deck ∧ List.Sublist q.2 g.deck ∧
      q.1.length = g.handsize ∧ q.2.length = g.handsize ∧ List.Disjoint q.1 q.2 := by
  constructor
  · intro hq
    simp only [dealPairs, List.mem_flatMap, List.mem_map] at hq
    obtain ⟨dealt, hdealt, h1, hh1, hpair⟩ := hq
    obtain ⟨hds, hdl⟩ := List.mem_sublistsLen.1 hdealt
    obtain ⟨h1s, h1l⟩ := List.mem_sublistsLen.1 hh1
    have hdn : dealt.Nodup := hdeck.sublist hds
    subst hpair
    refine ⟨h1s.trans hds, (List.filter_sublist dealt).trans hds, h1l, ?_, ?_⟩
    · have hc1 : dealt.countP (fun x => decide (x ∈ h1)) = h1.length :=
        length_filter_mem h1s hdn
      have htot : dealt.countP (fun x => decide (x ∈ h1) || decide (x ∉ h1)) =
          dealt.length := by
        have hcg : dealt.countP (fun x => decide (x ∈ h1) || decide (x ∉ h1)) =
            dealt.countP (fun _ => true) := by
          apply List.countP_congr
          intro x _
          by_cases hx : x ∈ h1 <;> simp [hx]
        rw [hcg]
        simp
      have hsplit : dealt.countP (fun x => decide (x ∈ h1) || decide (x ∉ h1)) =
          dealt.countP (fun x => decide (x ∈ h1)) + dealt.countP (fun x => decide (x ∉ h1)) :=
        countP_or_disjoint (fun x => decide (x ∈ h1)) (fun x => decide (x ∉ h1))
          dealt (by intro x ⟨ha, hb⟩; simp only [decide_eq_true_eq] at ha hb; exact hb ha)
      rw [← List.countP_eq_length_filter]
      omega
    · intro x hx1 hx2
      have := (List.mem_filter.1 hx2).2
      simp only [decide_eq_true_eq] at this
      exact this hx1
  · intro ⟨hs1, hs2, hl1, hl2, hdisj⟩
    have hq1 : g.deck.filter (fun x => decide (x ∈ q.1)) = q.1 :=
      filter_mem_of_sublist hs1 hdeck
    have hq2 : g.deck.filter (fun x => decide (x ∈ q.2)) = q.2 :=
      filter_mem_of_sublist hs2 hdeck
    have hcount : g.deck.countP (fun x => decide (x ∈ q.1) || decide (x ∈ q.2)) =
        q.1.length + q.2.length := by
      rw [countP_or_disjoint]
      · rw [length_filter_mem hs1 hdeck, length_filter_mem hs2 hdeck]
      · intro x ⟨hx1, hx2⟩
        simp only [decide_eq_true_eq] at hx1 hx2
        exact hdisj hx1 hx2
    have hdlen : (g.deck.filter (fun x => decide (x ∈ q.1) || decide (x ∈ q.2))).length =
        g.handsize * 2 := by
      rw [← List.countP_eq_length_filter, hcount, hl1, hl2]
      omega
    simp only [dealPairs, List.mem_flatMap, List.mem_map]
    refine ⟨g.deck.filter (fun x => decide (x ∈ q.1) || decide (x ∈ q.2)),
      List.mem_sublistsLen.2 ⟨List.filter_sublist g.deck, hdlen⟩, q.1, ?_, ?_⟩
    · apply List.mem_sublistsLen.2
      refine ⟨?_, hl1⟩
      have hmono := List.monotone_filter_right g.deck
        (p := fun x => decide (x ∈ q.1)) (q := fun x => decide (x ∈ q.1) || decide (x ∈ q.2))
        (fun a ha => by simp only [Bool.or_eq_true]; exact Or.inl ha)
      rwa [hq1] at hmono
    · have hfil : (g.deck.filter (fun x => decide (x ∈ q.1) || decide (x ∈ q.2))).filter
          (fun c => decide (c ∉ q.1)) = q.2 := by
        rw [List.filter_filter]
        have hcg : g.deck.filter
            (fun a => decide (a ∉ q.1) && (decide (a ∈ q.1) || decide (a ∈ q.2))) =
            g.deck.filter (fun x => decide (x ∈ q.2)) := by
          apply List.filter_congr
          intro a _
          by_cases ha1 : a ∈ q.1
          · have ha2 : a ∉ q.2 := fun h2 => hdisj ha1 h2
            simp [ha1, ha2]
          · by_cases ha2 : a ∈ q.2 <;> simp [ha1, ha2]
        rw [hcg, hq2]
      rw [hfil]

theorem dealPairs_nodup (g : Game σ κ) (hdeck : g.deck.Nodup) : (dealPairs g).Nodup := by
  rw [dealPairs, List.nodup_flatMap]
  constructor
  · intro dealt hdealt
    have hdn := hdeck.sublist (List.mem_sublistsLen.1 hdealt).1
    exact (List.nodup_sublistsLen _ hdn).map (fun a b hab => congrArg Prod.fst hab)
  · apply (List.nodup_sublistsLen _ hdeck).pairwise_of_forall_ne
    intro d1 hd1 d2 hd2 hne
    simp only [Function.onFun]
    intro q hq1 hq2
    simp only [List.mem_map] at hq1 hq2
    obtain ⟨h1, hh1, hp1⟩ := hq1
    obtain ⟨h1b, hh1b, hp2⟩ := hq2
    have hfst : h1b = h1 := congrArg Prod.fst (hp2.trans hp1.symm)
    subst hfst
    have hsnd : d1.filter (fun c => decide (c ∉ h1b)) =
        d2.filter (fun c => decide (c ∉ h1b)) :=
      (congrArg Prod.snd (hp1.trans hp2.symm))
    have hs1 := (List.mem_sublistsLen.1 hh1).1
    have hs1b := (List.mem_sublistsLen.1 hh1b).1
    have hmem : ∀ x, x ∈ d1 ↔ x ∈ d2 := by
      intro x
      constructor
      · intro hx
        by_cases hxh : x ∈ h1b
        · exact hs1b.subset hxh
        · have hxf : x ∈ d1.filter (fun c => decide (c ∉ h1b)) :=
            List.mem_filter.2 ⟨hx, by simp [hxh]⟩
          rw [hsnd] at hxf
          exact (List.filter_sublist d2).subset hxf
      · intro hx
        by_cases hxh : x ∈ h1b
        · exact hs1.subset hxh
        · have hxf : x ∈ d2.filter (fun c => decide (c ∉ h1b)) :=
            List.mem_filter.2 ⟨hx, by simp [hxh]⟩
          rw [← hsnd] at hxf
          exact (List.filter_sublist d1).subset hxf
    have hd1s := (List.mem_sublistsLen.1 hd1).1
    have hd2s := (List.mem_sublistsLen.1 hd2).1
    apply hne
    calc d1 = g.deck.filter (fun x => decide (x ∈ d1)) :=
          (filter_mem_of_sublist hd1s hdeck).symm
      _ = g.deck.filter (fun x => decide (x ∈ d2)) := by
          apply List.filter_congr
          intro x _
          simp [hmem x]
      _ = d2 := filter_mem_of_sublist hd2s hdeck

theorem sum_map_const_on {α : Type} :
    ∀ (l : List α) (f : α → ℕ) (c : ℕ),
      (∀ x ∈ l, f x = c) → (l.map f).sum = l.length * c := by
  intro l
  induction l with
  | nil => intro f c _; simp
  | cons a rest ih =>
    intro f c h
    simp only [List.map_cons, List.sum_cons, List.length_cons]
    rw [h a (List.mem_cons_self a rest), ih f c (fun x hx => h x (List.mem_cons_of_mem a hx))]
    ring

theorem choose_two_hands (n h : ℕ) :
    Nat.choose n (h * 2) * Nat.choose (h * 2) h =
      Nat.choose n h * Nat.choose (n - h) h := by
  by_cases hle : h * 2 ≤ n
  · have h1 : h ≤ h * 2 := by omega
    have hmul := Nat.choose_mul hle h1
    have hsub : h * 2 - h = h := by omega
    rwa [hsub] at hmul
  · rw [Nat.choose_eq_zero_of_lt (by omega), Nat.zero_mul]
    by_cases hn : h ≤ n
    · have hpos : 0 < h := by omega
      rw [Nat.choose_eq_zero_of_lt (show n - h < h by omega), Nat.mul_zero]
    · rw [Nat.choose_eq_zero_of_lt (by omega), Nat.zero_mul]

theorem dealPairs_length (g : Game σ κ) :
    (dealPairs g).length =
      Nat.choose g.deck.length g.handsize *
        Nat.choose (g.deck.length - g.handsize) g.handsize := by
  rw [dealPairs, List.length_flatMap]
  rw [sum_map_const_on _ _ (Nat.choose (g.handsize * 2) g.handsize) ?_]
  · rw [List.length_sublistsLen, choose_two_hands]
  · intro dealt hdealt
    simp only [Function.comp_apply, List.length_map, List.length_sublistsLen,
      (List.mem_sublistsLen.1 hdealt).2]

/-! ### Probability-vector facts about the normalization -/

theorem sum_map_div (c : ℚ) : ∀ (l : List ℚ), (l.map (fun x => x / c)).sum = l.sum / c := by
  intro l
  induction l with
  | nil => simp
  | cons a rest ih => simp only [List.map_cons, List.sum_cons, ih]; ring

theorem normalizeVec_nonneg (v : List ℚ) : ∀ x ∈ normalizeVec v, 0 ≤ x := by
  intro x hx
  unfold normalizeVec at hx
  by_cases hs : 0 < (v.map (fun y => max y 0)).sum
  · rw [if_pos hs] at hx
    obtain ⟨y, hy, hxy⟩ := List.mem_map.1 hx
    obtain ⟨w, _, hwy⟩ := List.mem_map.1 hy
    subst hxy
    exact div_nonneg (hwy ▸ le_max_right w 0) hs.le
  · rw [if_neg hs] at hx
    rw [List.eq_of_mem_replicate hx]
    positivity

theorem normalizeVec_sum (v : List ℚ) (hv : 0 < v.length) : (normalizeVec v).sum = 1 := by
  unfold normalizeVec
  by_cases hs : 0 < (v.map (fun y => max y 0)).sum
  · rw [if_pos hs, sum_map_div, div_self hs.ne.symm]
  · rw [if_neg hs, List.sum_replicate, nsmul_eq_mul]
    have hnz : (v.length : ℚ) ≠ 0 := Nat.cast_ne_zero.2 (by omega)
    field_simp

/-! ### Single-step characterizations of the training loops -/

/-- One sampled-deal traversal of external-sampling MCCFR with update player
`i`: sample a fresh game, start from reach probabilities `[1, 1]`, accumulate
the root utility. -/
def externalTraversal (g : Game σ κ) [DecidableEq κ] (fuel : ℕ) (i : ℕ)
    (acc : ℚ × Store κ × Rng) : ℚ × Store κ × Rng :=
  let gs := g.sample_new_game acc.2.2
  let z := external_cfr g fuel gs.1 (1, 1) i acc.2.1 gs.2
  (acc.1 + z.1, z.2)

theorem train_external_flat (g : Game σ κ) [DecidableEq κ] (fuel : ℕ) :
    ∀ (N : ℕ) (acc : ℚ × Store κ × Rng),
      (List.range N).foldl
        (fun (acc2 : ℚ × Store κ × Rng) _ =>
          (List.range 2).foldl
            (fun (acc3 : ℚ × Store κ × Rng) i =>
              let gs := g.sample_new_game acc3.2.2
              let z := external_cfr g fuel gs.1 (1, 1) i acc3.2.1 gs.2
              (acc3.1 + z.1, z.2)) acc2) acc =
      (List.range (2 * N)).foldl
        (fun acc2 i => externalTraversal g fuel (i % 2) acc2) acc := by
  intro N
  induction N with
  | zero => intro acc; rfl
  | succ N ih =>
    intro acc
    have h2 : 2 * (N + 1) = 2 * N + 1 + 1 := by ring
    have hr2 : List.range 2 = [0, 1] := rfl
    rw [List.range_succ (n := N), List.foldl_append, ih, h2,
      List.range_succ (n := 2 * N + 1), List.foldl_append,
      List.range_succ (n := 2 * N), List.foldl_append]
    have hm0 : 2 * N % 2 = 0 := by omega
    have hm1 : (2 * N + 1) % 2 = 1 := by omega
    simp only [hr2, List.foldl_cons, List.foldl_nil, hm0, hm1]
    rfl

/-- The N-fold iteration of one update-player-`u` traversal that
`get_exploitability` runs (discarding the utility). -/
def exploitStep (g : Game σ κ) [DecidableEq κ] (fuel : ℕ) (u : ℕ)
    (p : Store κ × Rng) : Store κ × Rng :=
  let gs := g.sample_new_game p.2
  let z := external_cfr g fuel gs.1 (1, 1) u p.1 gs.2
  (z.2.1, z.2.2)

theorem exploit_loop_iterate (g : Game σ κ) [DecidableEq κ] (fuel u : ℕ) :
    ∀ (n : ℕ) (a : Store κ × Rng),
      (List.range n).foldl
        (fun (acc : Store κ × Rng) _ =>
          let gs := g.sample_new_game acc.2
          let z := external_cfr g fuel gs.1 (1, 1) u acc.1 gs.2
          (z.2.1, z.2.2)) a =
      (exploitStep g fuel u)^[n] a := by
  intro n
  induction n with
  | zero => intro a; rfl
  | succ n ih =>
    intro a
    rw [List.range_succ, List.foldl_append, ih, Function.iterate_succ_apply']
    rfl

/-! ### A concrete instance used for witnesses and counterexamples

A minimal two-player game: at state 0 player 0 chooses between action 0
(leading to terminal state 1, still from the perspective of player 0,
payoff 5) and action 1 (leading to terminal state 2, player 1 to act,
payoff 7). -/

def cg1 : Game ℕ ℕ where
  player s := if s = 2 then 1 else 0
  isTerminal s := decide (1 ≤ s)
  get_payoff s := if s = 1 then 5 else 7
  get_possible_actions s := if s = 0 then [0, 1] else []
  get_next_game_state s a := if s = 0 then (if a = 0 then 1 else 2) else s
  abstractKey _ := 0
  deck := [0, 1]
  handsize := 1
  sample_new_game_hands _ _ := 0
  sample_new_game rng := (0, rngStep rng)

/-- The same game with the two actions enumerated in the opposite order. -/
def cg2 : Game ℕ ℕ :=
  { cg1 with get_possible_actions := fun s => if s = 0 then [1, 0] else [] }

/-! ### Claims -/

/-- C1: the claim states that in `chance_cfr`, `external_cfr` and
`evaluate_helper` the sign applied to each recursively computed child value
is determined solely by whether the acting player changes across that single
action, independently per action.  The code instead latches the sign
variable `payoff`: it is initialized to -1 once per node, set to +1 when
some action keeps the acting player, and never reset, so a later
player-changing action still gets sign +1.  At the one-decision game `cg1`
(action 0 keeps the player, action 1 changes it, terminal payoffs 5 and 7,
uniform strategy) all three traversals return (5 + 7)/2 = 6 where the
claimed per-action sign rule demands (5 - 7)/2 = -1; merely flipping the
enumeration order (`cg2`) makes the same code return -1. -/
theorem claim_C1_sign_latch :
    (chance_cfr cg1 2 0 (1, 1) Store.empty).1 = 6 ∧
    (external_cfr cg1 2 0 (1, 1) 0 Store.empty 0).1 = 6 ∧
    (evaluate_helper cg1 2 0 1 Store.empty).1 = 6 ∧
    (chance_cfr cg2 2 0 (1, 1) Store.empty).1 = -1 ∧
    ((5 : ℚ) * (1 / 2) + (-7) * (1 / 2) = -1) := by
  refine ⟨?_, ?_, ?_, ?_, by norm_num⟩ <;> with_unfolding_all decide

/-- C2 as stated is false: `evaluate()` calls `get_infoset`, which inserts a
zero-initialized infoset for every visited decision node whose key is absent,
so the key set of the store can grow.  At `cg1` with the empty store the key
`(0, 0, 2)` appears after one call. -/
theorem claim_C2_counterexample :
    (evaluate cg1 2 Store.empty).2 (0, 0, 2) ≠ Store.empty (0, 0, 2) := by
  with_unfolding_all decide

/-- C2 (amended): `evaluate()` is deterministic — a second call returns the
same value — and its only store effect is inserting zero-initialized
infosets at visited keys that were absent (existing entries are never
modified), so the second call leaves the store exactly as the first left
it. -/
theorem claim_C2_amended (g : Game σ κ) [DecidableEq κ] (fuel : ℕ) (st : Store κ) :
    (evaluate g fuel (evaluate g fuel st).2).1 = (evaluate g fuel st).1 ∧
    ZExt st (evaluate g fuel st).2 ∧
    (evaluate g fuel (evaluate g fuel st).2).2 = (evaluate g fuel st).2 := by
  have hzout : ZExt st (evalFold g fuel (dealStates g) (0, st)).2 :=
    evalFold_ZExt_out g fuel (dealStates g) (0, st)
  refine ⟨?_, ?_, ?_⟩
  · simp only [evaluate_eq_evalFold]
    rw [(evalFold_ZExt g fuel (dealStates g) 0 st _ hzout).1]
  · simp only [evaluate_eq_evalFold]
    exact hzout
  · simp only [evaluate_eq_evalFold]
    rw [evalFold_idem g fuel (dealStates g) 0 0 st _ hzout (fun k hk => hk)]

/-- C3: `evaluate` enumerates every ordered pair of disjoint
`handsize`-card hands from the deck exactly once (`dealPairs` is duplicate
free, its members are exactly the disjoint ordered pairs, and its count is
`C(n, h) * C(n - h, h)`), never updates an existing infoset (only
zero-initialized insertions), and returns the sum over the enumerated deals
of the average-strategy expected payoff of the deterministic initial state,
divided by that count. -/
theorem claim_C3_evaluate_enumeration (g : Game σ κ) [DecidableEq κ] (fuel : ℕ)
    (st : Store κ) (hdeck : g.deck.Nodup) :
    (dealPairs g).Nodup ∧
    (∀ q : List ℕ × List ℕ, q ∈ dealPairs g ↔
      (List.Sublist q.1 g.deck ∧ List.Sublist q.2 g.deck ∧
       q.1.length = g.handsize ∧ q.2.length = g.handsize ∧ List.Disjoint q.1 q.2)) ∧
    (dealPairs g).length =
      Nat.choose g.deck.length g.handsize *
        Nat.choose (g.deck.length - g.handsize) g.handsize ∧
    ZExt st (evaluate g fuel st).2 ∧
    (evaluate g fuel st).1 =
      ((dealPairs g).map (fun q =>
        (evaluate_helper g fuel
          (g.sample_new_game_hands (sortNat q.1) (sortNat q.2)) 1 st).1)).sum /
      ((Nat.choose g.deck.length g.handsize *
        Nat.choose (g.deck.length - g.handsize) g.handsize : ℕ) : ℚ) := by
  refine ⟨dealPairs_nodup g hdeck, fun q => mem_dealPairs g hdeck q, dealPairs_length g, ?_, ?_⟩
  · simp only [evaluate_eq_evalFold]
    exact evalFold_ZExt_out g fuel (dealStates g) (0, st)
  · simp only [evaluate_eq_evalFold]
    rw [evalFold_sum g fuel st (dealStates g) 0 st (ZExt.refl st)]
    rw [dealStates, List.map_map]
    simp only [zero_add, Nat.cast_mul]
    rfl

theorem claim_C3_witness :
    cg1.deck.Nodup ∧
    (dealPairs cg1).length =
      Nat.choose cg1.deck.length cg1.handsize *
        Nat.choose (cg1.deck.length - cg1.handsize) cg1.handsize :=
  ⟨by decide, (claim_C3_evaluate_enumeration cg1 2 Store.empty (by decide)).2.2.1⟩

/-- C4: at a non-terminal chance-sampled node with two or more legal
actions, the code fetches or creates the infoset, computes the
regret-matching strategy, adds `reach[acting player] * strategy` to the
strategy sum, computes every counterfactual value by recursing with only
the reach probability of the acting player multiplied by the strategy
probability of that action (threading the store, with the latched sign),
takes the node value as the dot product of the counterfactual values with
the strategy, and increments each cumulative regret by
`reach[opponent] * (cf - node value)` — with no condition on which player
is acting, so the infosets of both players are updated in every
iteration. -/
theorem claim_C4_chance_node (g : Game σ κ) [DecidableEq κ] (fuel : ℕ) (s : σ)
    (reach : Reach) (st : Store κ) (hterm : g.isTerminal s = false)
    (hacts : 2 ≤ (g.get_possible_actions s).length) :
    chance_cfr g (fuel + 1) s reach st =
      (let p := g.player s
       let key := get_info_key g s
       let fetched := get_infoset st key
       let strategy := regret_matching fetched.1
       let st2 := Store.modify fetched.2 key (update_strategy_sum (reach.get p))
       let scan := nodeScan g.player g.get_next_game_state
         (fun ns r stc => chance_cfr g fuel ns r stc)
         (fun r prob => r.set p (r.get p * prob)) s strategy reach
         (g.get_possible_actions s).enum (-1) st2
       let node_value := dotProd scan.2.1 strategy
       (node_value,
        Store.modify scan.2.2 key (fun inf =>
          { inf with
            cumulative_regrets :=
              List.zipWith (fun cr cf => cr + reach.get ((p + 1) % 2) * (cf - node_value))
                inf.cumulative_regrets scan.2.1 }))) := by
  have hne : ¬((g.get_possible_actions s).length = 1) := by omega
  simp only [chance_cfr, hterm, Bool.false_eq_true, if_false, if_neg hne]
  rw [foldl_nodeStep_eq_nodeScan]
  simp only [List.nil_append]

theorem claim_C4_witness : (chance_cfr cg1 2 0 (1, 1) Store.empty).1 = 6 := by
  rw [show (2 : ℕ) = 1 + 1 from rfl,
    claim_C4_chance_node cg1 1 0 (1, 1) Store.empty (by decide) (by decide)]
  with_unfolding_all decide

/-- C5: `train_external(N)` performs exactly `2 * N` traversals — the
nested per-iteration loop over both update players equals one flat loop
over `2 * N` traversals whose update player is `i % 2`, i.e. alternates
0, 1 within each outer iteration — each traversal sampling a fresh game
and starting from reach probabilities `[1, 1]` (see `externalTraversal`),
and the returned utility is the accumulated root utility divided by
`2 * N`. -/
theorem claim_C5_train_external_traversals (g : Game σ κ) [DecidableEq κ]
    (fuel N : ℕ) (st : Store κ) (rng : Rng) :
    train_external g fuel N st rng =
      (((List.range (2 * N)).foldl
          (fun acc i => externalTraversal g fuel (i % 2) acc) (0, st, rng)).1 /
        ((2 * N : ℕ) : ℚ),
       ((List.range (2 * N)).foldl
          (fun acc i => externalTraversal g fuel (i % 2) acc) (0, st, rng)).2) := by
  unfold train_external
  rw [train_external_flat g fuel N (0, st, rng)]
  have hc : ((N : ℚ) * 2) = ((2 * N : ℕ) : ℚ) := by push_cast; ring
  rw [hc]

/-- C6: at a non-terminal externally-sampled node with two or more legal
actions where the acting player is not the update player, exactly one
action is drawn from the current regret-matching strategy (`randChoice rng
strategy`), the traversal recurses only along that branch with the reach
probability of the acting player multiplied by the probability of the
drawn action, and the only store change at the node is the get-or-create
of the infoset: an existing entry (with its cumulative regrets and
strategy sum) is passed on unmodified, an absent one is inserted
zero-initialized. -/
theorem claim_C6_external_sampling (g : Game σ κ) [DecidableEq κ] (fuel : ℕ) (s : σ)
    (reach : Reach) (update_player : ℕ) (st : Store κ) (rng : Rng)
    (hterm : g.isTerminal s = false) (hacts : 2 ≤ (g.get_possible_actions s).length)
    (hplayer : g.player s ≠ update_player) :
    (external_cfr g (fuel + 1) s reach update_player st rng =
      (let p := g.player s
       let key := get_info_key g s
       let fetched := get_infoset st key
       let strategy := regret_matching fetched.1
       let drawn := randChoice rng strategy
       let action := (g.get_possible_actions s).getD drawn.1 0
       let actionProb := strategy.getD ((g.get_possible_actions s).indexOf action) 0
       let ns := g.get_next_game_state s action
       let z := external_cfr g fuel ns (reach.set p (reach.get p * actionProb))
         update_player fetched.2 drawn.2
       ((if g.player s = g.player ns then (1 : ℚ) else -1) * z.1, z.2))) ∧
    (∀ i : Infoset, st (get_info_key g s) = some i →
      (get_infoset st (get_info_key g s)).2 (get_info_key g s) = some i) ∧
    (st (get_info_key g s) = none →
      (get_infoset st (get_info_key g s)).2 (get_info_key g s) =
        some (Infoset.init (g.get_possible_actions s).length)) := by
  have hne : ¬((g.get_possible_actions s).length = 1) := by omega
  refine ⟨?_, ?_, ?_⟩
  · simp only [external_cfr, hterm, Bool.false_eq_true, if_false, if_neg hne,
      if_pos hplayer]
  · intro i hi
    unfold get_infoset
    rw [hi]
    exact hi
  · intro hnone
    unfold get_infoset
    rw [hnone]
    simp [get_info_key]

theorem claim_C6_witness : (external_cfr cg1 2 0 (1, 1) 1 Store.empty 0).1 = 5 := by
  rw [show (2 : ℕ) = 1 + 1 from rfl,
    (claim_C6_external_sampling cg1 1 0 (1, 1) 1 Store.empty 0 (by decide) (by decide)
      (by decide)).1]
  with_unfolding_all decide

/-- C7: `get_exploitability(N)` returns `b1 - b2` where `b1` is the value
of `evaluate` on the store produced by `N` update-player-0 traversals from
the pre-call store (with the pre-call generator state), `b2` is the value
of `evaluate` on the store produced by `N` update-player-1 traversals
starting again from the same pre-call store snapshot (the generator state
continuing), and the returned store is the restored pre-call snapshot. -/
theorem claim_C7_exploitability (g : Game σ κ) [DecidableEq κ] (fuel N : ℕ)
    (st : Store κ) (rng : Rng) :
    get_exploitability g fuel N st rng =
      (let L0 := (exploitStep g fuel 0)^[N] (st, rng)
       let b1 := (evaluate g fuel L0.1).1
       let L1 := (exploitStep g fuel 1)^[N] (st, L0.2)
       let b2 := (evaluate g fuel L1.1).1
       (b1 - b2, st, L1.2)) := by
  simp only [get_exploitability]
  rw [exploit_loop_iterate g fuel 0 N (st, rng),
    exploit_loop_iterate g fuel 1 N (st, ((exploitStep g fuel 0)^[N] (st, rng)).2)]

/-- C8: with the random source modelled as an explicitly threaded, seeded
generator state (the game sampler is pure given that state, per the
specification), training is a pure function of the seed: two runs of
`train_chance` or `train_external` from equal seeds, iteration counts and
starting stores produce identical results, in particular identical store
contents. -/
theorem claim_C8_seed_determinism (g : Game σ κ) [DecidableEq κ] (fuel N : ℕ)
    (st : Store κ) (seed1 seed2 : Rng) (h : seed1 = seed2) :
    train_chance g fuel N st seed1 = train_chance g fuel N st seed2 ∧
    train_external g fuel N st seed1 = train_external g fuel N st seed2 := by
  subst h
  exact ⟨rfl, rfl⟩

theorem claim_C8_witness :
    (37 : ℕ) = 37 ∧
    train_chance cg1 2 3 Store.empty 37 = train_chance cg1 2 3 Store.empty 37 :=
  ⟨rfl, (claim_C8_seed_determinism cg1 2 3 Store.empty 37 37 rfl).1⟩

/-- C9: for every infoset whose cumulative-regret vector is non-empty
(all-zero, all-negative or mixed-sign alike), regret matching returns a
probability vector: entrywise non-negative, summing to 1, equal to the
positive parts divided by their sum when that sum is positive and uniform
`1/n` otherwise. -/
theorem claim_C9_regret_matching (inf : Infoset)
    (hn : 0 < inf.cumulative_regrets.length) :
    (∀ x ∈ regret_matching inf, 0 ≤ x) ∧
    (regret_matching inf).sum = 1 ∧
    (0 < (inf.cumulative_regrets.map (fun x => max x 0)).sum →
      regret_matching inf = (inf.cumulative_regrets.map (fun x => max x 0)).map
        (fun x => x / (inf.cumulative_regrets.map (fun y => max y 0)).sum)) ∧
    (¬ 0 < (inf.cumulative_regrets.map (fun x => max x 0)).sum →
      regret_matching inf = List.replicate inf.cumulative_regrets.length
        (1 / (inf.cumulative_regrets.length : ℚ))) := by
  refine ⟨normalizeVec_nonneg _, normalizeVec_sum _ hn, ?_, ?_⟩
  · intro hpos
    unfold regret_matching normalizeVec
    rw [if_pos hpos]
  · intro hneg
    unfold regret_matching normalizeVec
    rw [if_neg hneg]

theorem claim_C9_witness :
    0 < (Infoset.mk [-1, 2, 0] [0, 0, 0]).cumulative_regrets.length ∧
    (regret_matching (Infoset.mk [-1, 2, 0] [0, 0, 0])).sum = 1 :=
  ⟨by decide, (claim_C9_regret_matching (Infoset.mk [-1, 2, 0] [0, 0, 0]) (by decide)).2.1⟩

/-- C10: the value (and in fact the whole result, store included) of
`evaluate_helper` does not depend on its `reach_prob` argument: the updated
reach probability is threaded downward but never read. -/
theorem claim_C10_reach_irrelevant (g : Game σ κ) [DecidableEq κ] (fuel : ℕ) (s : σ)
    (r1 r2 : ℚ) (st : Store κ) :
    evaluate_helper g fuel s r1 st = evaluate_helper g fuel s r2 st :=
  evaluate_helper_reach_irrel g fuel s r1 r2 st

end MCCFR
